import Mathlib

/-!
Verification of the winter air-quality analysis pipeline
(`analyze_winter_air.py`) against its natural-language specification.

The pipeline's core is embedded shallowly:
* hourly readings are `Option ℚ` (`none` is the missing marker; Python uses
  `None`, and real arithmetic on floats is modelled exactly over `ℚ`);
* Python dicts (which preserve insertion order) are association lists
  `List (String × _)` looked up by first match (`alist_lookup`), matching
  `dict.get` on dicts with unique keys;
* the `float("nan")` sentinel produced by `compute_station_means` for a
  station with no usable points is modelled as `none : Option ℚ`, and the
  `math.isnan` test in `aggregate_city_means` as matching on that `none`;
* file discovery, CSV parsing and HTML rendering are the external
  collaborators of the spec; `main`'s control flow over their results is
  modelled by `main_model`, which takes the discovered file list and the
  ingested series as inputs.
-/

/-- `interpolate_series`'s `while` loop (source lines 72-101), as a
recursion over the remainder of the list.  `prev` carries
`result[start - 1] if start > 0 else None`: the last element scanned past,
which at every gap is exactly the known value immediately before it.  On a
missing element, the maximal run of missing values is measured
(`end - start` in the source, `gapTail.length + 1` here), `next_val` is the
element after the run (`after.head?.join`, `None` when the run reaches the
end), and the run is replaced according to the four cases of the source:
all-missing, leading gap, trailing gap, interior gap (linear fill with
ratio `(offset + 1) / (gap + 1)`).  The loop consumes at least one element
per iteration, which the `fuel` argument makes structural; `fuel` is
initialised to the list length, an upper bound on the iteration count.

The replacement for one maximal gap of length `g` is `gapFill`, by the
four cases of the source: `prev_val` and `next_val` both missing (leave
the gap missing), leading gap (copy `next_val`), trailing gap (copy
`prev_val`), interior gap (linear fill with ratio
`(offset + 1) / (gap + 1)`, source lines 95-98). -/
def gapFill (prev nxt : Option ℚ) (g : ℕ) : List (Option ℚ) :=
  match prev, nxt with
  | none, none => List.replicate g none
  | none, some nx => List.replicate g (some nx)
  | some pv, none => List.replicate g (some pv)
  | some pv, some nx =>
    (List.range g).map fun (o : ℕ) => some (pv + (nx - pv) * ((o : ℚ) + 1) / ((g : ℚ) + 1))

def interpGo : ℕ → Option ℚ → List (Option ℚ) → List (Option ℚ)
  | _, _, [] => []
  | 0, _, l => l
  | fuel+1, _, some v :: rest => some v :: interpGo fuel (some v) rest
  | fuel+1, prev, none :: rest =>
    let gapTail := rest.takeWhile fun x => x.isNone
    let after := rest.dropWhile fun x => x.isNone
    gapFill prev after.head?.join (gapTail.length + 1) ++ interpGo fuel prev after

/-- `interpolate_series(values)` from the source: run the scan over a copy
of the input (the model is pure, so `result = values[:]` needs no step). -/
def interpolate_series (values : List (Option ℚ)) : List (Option ℚ) :=
  interpGo values.length none values

/-- Station metadata record built by `load_station_metadata`
(source lines 25-48): display name, city, longitude, latitude, control
flag.  The loader itself is I/O and out of the core. -/
structure StationInfo where
  name : String
  city : String
  lon : ℚ
  lat : ℚ
  control : String

/-- First-match lookup in an association list: `dict.get(key)` for a
Python dict with unique keys (insertion order preserved). -/
def alist_lookup {α : Type} : List (String × α) → String → Option α
  | [], _ => none
  | p :: rest, k => if p.1 = k then some p.2 else alist_lookup rest k

/-- `city_values.setdefault(city, []).append(val)` (source lines 152 and
160): append `v` to the entry of key `k`, creating the entry at the end (in
insertion order) when the key is new. -/
def addToCity {α : Type} (acc : List (String × List α)) (k : String) (v : α) :
    List (String × List α) :=
  if acc.any fun p => p.1 = k then
    acc.map fun p => if p.1 = k then (p.1, p.2 ++ [v]) else p
  else acc ++ [(k, [v])]

/-- `compute_station_means` (source lines 135-142): interpolate each
station's series, keep the non-missing values, and record their arithmetic
mean — or the undefined marker (`float("nan")` in the source, `none` here)
when no value is left. -/
def compute_station_means (series : List (String × List (Option ℚ))) :
    List (String × Option ℚ) :=
  series.map fun p =>
    (p.1,
      if ((interpolate_series p.2).filterMap id) = [] then none
      else some (((interpolate_series p.2).filterMap id).sum /
        ((((interpolate_series p.2).filterMap id).length : ℚ))))

/-- `aggregate_city_means` (source lines 145-153): group each defined
station mean under its city (skipping stations without metadata and
stations whose mean is the undefined marker, Python's `math.isnan` test),
then emit the unweighted mean of each nonempty group. -/
def aggregate_city_means (station_means : List (String × Option ℚ))
    (station_meta : List (String × StationInfo)) : List (String × ℚ) :=
  let city_values := station_means.foldl (fun acc p =>
    match p.2, alist_lookup station_meta p.1 with
    | some v, some meta => addToCity acc meta.city v
    | _, _ => acc) []
  city_values.filterMap fun p =>
    if p.2 = [] then none else some (p.1, p.2.sum / (p.2.length : ℚ))

/-- `city_coordinates` (source lines 156-161): group the `(lat, lon)` of
every metadata station under its city and emit the unweighted mean of the
latitudes and of the longitudes of each nonempty group.  Note this reads
the station metadata only — station statistics play no part. -/
def city_coordinates (station_meta : List (String × StationInfo)) :
    List (String × ℚ × ℚ) :=
  let coords := station_meta.foldl
    (fun acc p => addToCity acc p.2.city (p.2.lat, p.2.lon)) []
  coords.filterMap fun p =>
    if p.2 = [] then none
    else some (p.1, ((p.2.map Prod.fst).sum / (p.2.length : ℚ),
      (p.2.map Prod.snd).sum / (p.2.length : ℚ)))

/-- One step of a stable ascending insertion sort on the statistic value:
the new pair goes after every element whose value is `≤` its own. -/
def insort (p : String × ℚ) : List (String × ℚ) → List (String × ℚ)
  | [] => [p]
  | q :: rest => if q.2 ≤ p.2 then q :: insort p rest else p :: q :: rest

/-- `sorted(city_means.items(), key=lambda x: x[1])` (source line 176):
Python's `sorted` is a stable ascending sort on the key; it is modelled as
a stable insertion sort (extensionally the same function). -/
def sorted_by_val (l : List (String × ℚ)) : List (String × ℚ) :=
  l.foldl (fun acc p => insort p acc) []

/-- Round half to even at integer precision, the documented behaviour of
Python's builtin `round`. -/
def round_half_even (x : ℚ) : ℤ :=
  if x - ⌊x⌋ < 1/2 then ⌊x⌋
  else if 1/2 < x - ⌊x⌋ then ⌊x⌋ + 1
  else if ⌊x⌋ % 2 = 0 then ⌊x⌋ else ⌊x⌋ + 1

/-- `round(x, 2)`: round to the nearest multiple of `1/100`, ties to even. -/
def round2 (x : ℚ) : ℚ := (round_half_even (x * 100) : ℚ) / 100

/-- The rows `save_ranking` (source lines 175-181) hands to the CSV sink:
cities sorted ascending by statistic, enumerated from rank 1, with the
statistic rounded to two decimal places.  The CSV writing itself is the
downstream collaborator. -/
def save_ranking (city_means : List (String × ℚ)) : List (ℕ × String × ℚ) :=
  (List.enumFrom 1 (sorted_by_val city_means)).map fun p => (p.1, p.2.1, round2 p.2.2)

/-- `main` (source lines 236-254) restricted to the core data flow: abort
with the fatal message when no observation files were discovered — before
any core component runs — otherwise run station aggregation, city
aggregation, coordinate reduction and ranking.  File discovery and CSV
ingestion are collaborators, so the discovered file list and the ingested
per-station series are parameters. -/
def main_model (station_meta : List (String × StationInfo)) (data_files : List String)
    (series : List (String × List (Option ℚ))) :
    Except String (List (String × ℚ) × List (String × ℚ × ℚ) × List (ℕ × String × ℚ)) :=
  if data_files = [] then Except.error ("未找到数据文件，请确认数据目录存在")
  else
    let station_means := compute_station_means series
    let city_means := aggregate_city_means station_means station_meta
    Except.ok (city_means, city_coordinates station_meta, save_ranking city_means)

/-- The defined station means that `aggregate_city_means` groups under the
city `c`: stations with metadata mapping them to `c` and a defined
(non-`nan`) mean, in input order. -/
def city_group (station_means : List (String × Option ℚ))
    (station_meta : List (String × StationInfo)) (c : String) : List ℚ :=
  station_means.filterMap fun p =>
    match p.2, alist_lookup station_meta p.1 with
    | some v, some meta => if meta.city = c then some v else none
    | _, _ => none

/-- The `(lat, lon)` pairs that `city_coordinates` groups under the city
`c`: every metadata station of that city, in metadata order. -/
def coord_group (station_meta : List (String × StationInfo)) (c : String) :
    List (ℚ × ℚ) :=
  station_meta.filterMap fun p =>
    if p.2.city = c then some (p.2.lat, p.2.lon) else none

/-! ### Basic facts about the gap scan -/

theorem takeWhile_isNone_append_some (xs : List (Option ℚ)) (v : ℚ)
    (rest : List (Option ℚ)) :
    ((xs ++ some v :: rest).takeWhile fun x => x.isNone) =
      xs.takeWhile fun x => x.isNone := by
  induction xs with
  | nil => simp [List.takeWhile]
  | cons x t ih =>
    cases x <;> simp [List.takeWhile, ih]

theorem dropWhile_isNone_append_some (xs : List (Option ℚ)) (v : ℚ)
    (rest : List (Option ℚ)) :
    ((xs ++ some v :: rest).dropWhile fun x => x.isNone) =
      (xs.dropWhile fun x => x.isNone) ++ some v :: rest := by
  induction xs with
  | nil => simp [List.dropWhile]
  | cons x t ih =>
    cases x <;> simp [List.dropWhile, ih]

theorem takeWhile_isNone_replicate (k : ℕ) :
    ((List.replicate k (none : Option ℚ)).takeWhile fun x => x.isNone) =
      List.replicate k none := by
  induction k with
  | zero => simp
  | succ k ih => simp [List.replicate, List.takeWhile, ih]

theorem dropWhile_isNone_replicate (k : ℕ) :
    ((List.replicate k (none : Option ℚ)).dropWhile fun x => x.isNone) = [] := by
  induction k with
  | zero => simp
  | succ k ih => simp [List.replicate, List.dropWhile, ih]

theorem gapFill_length (prev nxt : Option ℚ) (g : ℕ) :
    (gapFill prev nxt g).length = g := by
  cases prev <;> cases nxt <;>
    simp only [gapFill, List.length_replicate, List.length_map, List.length_range]

theorem length_take_add_drop_isNone (l : List (Option ℚ)) :
    (l.takeWhile fun x => x.isNone).length +
      (l.dropWhile fun x => x.isNone).length = l.length := by
  have h := congrArg List.length (List.takeWhile_append_dropWhile
    (p := fun x : Option ℚ => x.isNone) (l := l))
  rw [List.length_append] at h
  exact h

theorem length_dropWhile_isNone_le (l : List (Option ℚ)) :
    (l.dropWhile fun x => x.isNone).length ≤ l.length := by
  have := length_take_add_drop_isNone l
  omega

theorem interpGo_fuel_irrel (f₁ : ℕ) : ∀ (f₂ : ℕ) (prev : Option ℚ)
    (l : List (Option ℚ)), l.length ≤ f₁ → l.length ≤ f₂ →
    interpGo f₁ prev l = interpGo f₂ prev l := by
  induction f₁ with
  | zero =>
    intro f₂ prev l h₁ _
    have : l = [] := List.eq_nil_of_length_eq_zero (Nat.le_zero.mp h₁)
    subst this; cases f₂ <;> simp [interpGo]
  | succ f₁ ih =>
    intro f₂ prev l h₁ h₂
    cases l with
    | nil => cases f₂ <;> simp [interpGo]
    | cons x rest =>
      cases f₂ with
      | zero => simp at h₂
      | succ f₂ =>
        cases x with
        | some v =>
          simp only [interpGo]
          have := ih f₂ (some v) rest (by simpa using h₁) (by simpa using h₂)
          rw [this]
        | none =>
          simp only [interpGo]
          have hlen : (rest.dropWhile fun x => x.isNone).length ≤ rest.length :=
            length_dropWhile_isNone_le rest
          have := ih f₂ prev (rest.dropWhile fun x => x.isNone)
            (by simp at h₁; omega) (by simp at h₂; omega)
          rw [this]

theorem interpGo_length (fuel : ℕ) : ∀ (prev : Option ℚ) (l : List (Option ℚ)),
    l.length ≤ fuel → (interpGo fuel prev l).length = l.length := by
  induction fuel with
  | zero =>
    intro prev l h
    have : l = [] := List.eq_nil_of_length_eq_zero (Nat.le_zero.mp h)
    subst this; simp [interpGo]
  | succ fuel ih =>
    intro prev l h
    cases l with
    | nil => simp [interpGo]
    | cons x rest =>
      cases x with
      | some v =>
        simp only [interpGo, List.length_cons]
        rw [ih (some v) rest (by simpa using h)]
      | none =>
        simp only [interpGo, List.length_append, gapFill_length]
        have htd := length_take_add_drop_isNone rest
        have hrec : (interpGo fuel prev (rest.dropWhile fun x => x.isNone)).length =
            (rest.dropWhile fun x => x.isNone).length := by
          apply ih
          have := length_dropWhile_isNone_le rest
          simp at h; omega
        rw [hrec]
        simp only [List.length_cons]
        omega

theorem interpolate_series_length (l : List (Option ℚ)) :
    (interpolate_series l).length = l.length :=
  interpGo_length l.length none l (Nat.le_refl _)

theorem option_join_some (a : Option ℚ) : (some a).join = a := rfl

theorem head_join_append_some (D : List (Option ℚ)) (v : ℚ)
    (rest : List (Option ℚ)) :
    (D ++ some v :: rest).head?.join = (D ++ [some v]).head?.join := by
  cases D <;> simp

/-- Scanning `xs ++ [some v] ++ rest` processes `xs ++ [some v]` exactly as
if `rest` were absent, then continues on `rest` with `prev = some v`: every
gap inside `xs` is bounded on the right by an element of `xs` or by
`some v`, never by anything in `rest`. -/
theorem interpGo_append (v : ℚ) (rest : List (Option ℚ)) (fuel : ℕ) :
    ∀ (xs : List (Option ℚ)) (prev : Option ℚ),
      xs.length + 1 + rest.length ≤ fuel →
      interpGo fuel prev (xs ++ some v :: rest) =
        interpGo fuel prev (xs ++ [some v]) ++ interpGo rest.length (some v) rest := by
  induction fuel with
  | zero => intro xs prev h; omega
  | succ fuel ih =>
    intro xs prev h
    cases xs with
    | nil =>
      simp only [List.nil_append, interpGo]
      rw [interpGo_fuel_irrel fuel rest.length (some v) rest
        (by simp at h; omega) (Nat.le_refl _)]
      simp
    | cons x xs' =>
      cases x with
      | some u =>
        simp only [List.cons_append, interpGo, List.append_eq]
        rw [ih xs' (some u) (by simp at h; omega)]
      | none =>
        simp only [List.cons_append, interpGo, List.append_eq]
        rw [takeWhile_isNone_append_some xs' v rest,
          dropWhile_isNone_append_some xs' v rest,
          takeWhile_isNone_append_some xs' v [],
          dropWhile_isNone_append_some xs' v [],
          head_join_append_some (xs'.dropWhile fun x => x.isNone) v rest]
        rw [ih (xs'.dropWhile fun x => x.isNone) prev
          (by have := length_dropWhile_isNone_le xs'; simp at h; omega)]
        rw [List.append_assoc]

/-- Scanning a maximal run of `g` missing values bounded on the right by a
known `nx` replaces the run with `gapFill prev (some nx) g` (linear fill
when `prev` is known, back-fill with `nx` when the gap is leading) and
continues after `nx`. -/
theorem interpGo_gap (prev : Option ℚ) (g : ℕ) (nx : ℚ) (l2 : List (Option ℚ))
    (fuel : ℕ) (h : g + 1 + l2.length ≤ fuel) :
    interpGo fuel prev (List.replicate g none ++ some nx :: l2) =
      gapFill prev (some nx) g ++ some nx :: interpGo l2.length (some nx) l2 := by
  cases g with
  | zero =>
    cases fuel with
    | zero => omega
    | succ f =>
      simp only [List.replicate, List.nil_append, interpGo]
      rw [interpGo_fuel_irrel f l2.length (some nx) l2 (by omega) (Nat.le_refl _)]
      cases prev <;> simp [gapFill]
  | succ g =>
    cases fuel with
    | zero => omega
    | succ f =>
      simp only [List.replicate_succ, List.cons_append, interpGo, List.append_eq]
      rw [takeWhile_isNone_append_some (List.replicate g none) nx l2,
        dropWhile_isNone_append_some (List.replicate g none) nx l2,
        takeWhile_isNone_replicate g, dropWhile_isNone_replicate g]
      simp only [List.nil_append, List.head?_cons, option_join_some,
        List.length_replicate]
      cases f with
      | zero => omega
      | succ f' =>
        simp only [interpGo]
        rw [interpGo_fuel_irrel f' l2.length (some nx) l2 (by omega) (Nat.le_refl _)]

/-- A trailing run of `g` missing values (nothing known after it) is filled
with the preceding known value `pv`. -/
theorem interpGo_trailing (pv : ℚ) (g : ℕ) (fuel : ℕ) (h : g ≤ fuel) :
    interpGo fuel (some pv) (List.replicate g none) =
      List.replicate g (some pv) := by
  cases g with
  | zero => cases fuel <;> simp [interpGo]
  | succ g =>
    cases fuel with
    | zero => omega
    | succ f =>
      simp only [List.replicate_succ, interpGo]
      rw [takeWhile_isNone_replicate g, dropWhile_isNone_replicate g]
      simp [gapFill, List.replicate_succ, interpGo]

/-- An entirely missing series is left unchanged (all positions missing). -/
theorem interpGo_all_none (fuel : ℕ) (l : List (Option ℚ)) (h : l.length ≤ fuel)
    (hall : ∀ x ∈ l, x = none) : interpGo fuel none l = l := by
  cases l with
  | nil => cases fuel <;> simp [interpGo]
  | cons x rest =>
    have hx : x = none := hall x (List.mem_cons_self _ _)
    subst hx
    cases fuel with
    | zero => simp at h
    | succ f =>
      have hrest : rest = List.replicate rest.length none :=
        List.eq_replicate_of_mem fun b hb => hall b (List.mem_cons_of_mem _ hb)
      simp only [interpGo]
      rw [show (rest.takeWhile fun x => x.isNone) = rest by
            rw [hrest]; exact takeWhile_isNone_replicate _,
          show (rest.dropWhile fun x => x.isNone) = [] by
            rw [hrest]; exact dropWhile_isNone_replicate _]
      simp only [List.head?_nil, Option.join, gapFill]
      conv_rhs => rw [hrest]
      cases f <;> simp [interpGo, List.replicate_succ]

/-- If any element of `rest` is known, `dropWhile isNone` lands on a known
element. -/
theorem dropWhile_isNone_of_exists (rest : List (Option ℚ))
    (hx : ∃ x ∈ rest, x ≠ none) :
    ∃ nx l', (rest.dropWhile fun x => x.isNone) = some nx :: l' := by
  induction rest with
  | nil => simp at hx
  | cons a t ih =>
    cases a with
    | some u => exact ⟨u, t, by simp [List.dropWhile]⟩
    | none =>
      apply ih
      rcases hx with ⟨x, hmem, hne⟩
      rcases List.mem_cons.mp hmem with h1 | h1
      · exact absurd h1 hne
      · exact ⟨x, h1, hne⟩

/-- A gap fill contains no missing value unless both bounds are missing. -/
theorem gapFill_no_none (prev nxt : Option ℚ) (g : ℕ)
    (h : prev ≠ none ∨ nxt ≠ none) : ∀ y ∈ gapFill prev nxt g, y ≠ none := by
  intro y hy
  rcases prev with _ | pv <;> rcases nxt with _ | nx
  · rcases h with h | h <;> exact absurd rfl h
  · simp only [gapFill] at hy
    rw [List.eq_of_mem_replicate hy]; simp
  · simp only [gapFill] at hy
    rw [List.eq_of_mem_replicate hy]; simp
  · simp only [gapFill] at hy
    rcases List.mem_map.mp hy with ⟨o, -, rfl⟩
    simp

/-- As long as something before or after is known, the scan never emits a
missing value. -/
theorem interpGo_no_none (fuel : ℕ) : ∀ (prev : Option ℚ) (l : List (Option ℚ)),
    l.length ≤ fuel → (prev ≠ none ∨ ∃ x ∈ l, x ≠ none) →
    ∀ y ∈ interpGo fuel prev l, y ≠ none := by
  induction fuel with
  | zero =>
    intro prev l h _ y hy
    have : l = [] := List.eq_nil_of_length_eq_zero (Nat.le_zero.mp h)
    subst this; simp [interpGo] at hy
  | succ fuel ih =>
    intro prev l h hprem y hy
    cases l with
    | nil => simp [interpGo] at hy
    | cons x rest =>
      cases x with
      | some u =>
        simp only [interpGo, List.mem_cons] at hy
        rcases hy with hy | hy
        · subst hy; simp
        · exact ih (some u) rest (by simpa using h) (Or.inl (by simp)) y hy
      | none =>
        have hprem' : prev ≠ none ∨ ∃ x ∈ rest, x ≠ none := by
          rcases hprem with h1 | ⟨x, hmem, hne⟩
          · exact Or.inl h1
          · rcases List.mem_cons.mp hmem with h1 | h1
            · exact absurd h1 hne
            · exact Or.inr ⟨x, h1, hne⟩
        have hlen : (rest.dropWhile fun x => x.isNone).length ≤ fuel := by
          have := length_dropWhile_isNone_le rest
          simp at h; omega
        simp only [interpGo, List.mem_append] at hy
        rcases hy with hy | hy
        · -- y is in the gap fill
          have hne : prev ≠ none ∨
              ((rest.dropWhile fun x => x.isNone).head?.join) ≠ none := by
            rcases hprem' with h1 | h1
            · exact Or.inl h1
            · rcases dropWhile_isNone_of_exists rest h1 with ⟨nx, l', hdrop⟩
              rw [hdrop]; simp
          exact gapFill_no_none _ _ _ hne y hy
        · -- y is in the recursive part
          rcases hprem' with hp | hex
          · exact ih prev _ hlen (Or.inl hp) y hy
          · rcases dropWhile_isNone_of_exists rest hex with ⟨nx, l', hdrop⟩
            rw [hdrop] at hy hlen
            exact ih prev _ hlen (Or.inr ⟨some nx, by simp, by simp⟩) y hy

/-! ### Grouping by city: the `setdefault`/`append` fold -/

theorem alist_lookup_map_update {α : Type} (acc : List (String × List α))
    (k : String) (f : List α → List α) (k' : String) :
    alist_lookup (acc.map fun p => if p.1 = k then (p.1, f p.2) else p) k' =
      if k' = k then (alist_lookup acc k).map f else alist_lookup acc k' := by
  induction acc with
  | nil => by_cases h : k' = k <;> simp [alist_lookup, h]
  | cons p rest ih =>
    simp only [List.map_cons]
    by_cases hp : p.1 = k
    · subst hp
      by_cases hq : p.1 = k'
      · subst hq
        simp [alist_lookup]
      · simp [alist_lookup, hq, ih, Ne.symm hq]
    · by_cases hq : p.1 = k'
      · subst hq
        simp [alist_lookup, hp, Ne.symm hp]
      · simp [alist_lookup, hp, hq, ih]

theorem alist_lookup_any_isSome {α : Type} (acc : List (String × α)) (k : String) :
    (acc.any fun p => p.1 = k) = (alist_lookup acc k).isSome := by
  induction acc with
  | nil => simp [alist_lookup]
  | cons p rest ih =>
    by_cases hp : p.1 = k <;> simp [alist_lookup, hp, ih]

theorem alist_lookup_append_one {α : Type} (acc : List (String × α))
    (q : String × α) (k' : String) :
    alist_lookup (acc ++ [q]) k' =
      match alist_lookup acc k' with
      | some w => some w
      | none => if q.1 = k' then some q.2 else none := by
  induction acc with
  | nil => simp [alist_lookup]
  | cons p rest ih =>
    by_cases hp : p.1 = k' <;> simp [alist_lookup, hp, ih]

theorem alist_lookup_addToCity {α : Type} (acc : List (String × List α))
    (k : String) (v : α) (k' : String) :
    alist_lookup (addToCity acc k v) k' =
      if k' = k then some ((alist_lookup acc k).getD [] ++ [v])
      else alist_lookup acc k' := by
  unfold addToCity
  by_cases hany : (acc.any fun p => p.1 = k) = true
  · rw [if_pos hany, alist_lookup_map_update acc k (fun vs => vs ++ [v]) k']
    by_cases hk : k' = k
    · subst hk
      rcases hs : alist_lookup acc k' with _ | vs
      · exfalso
        rw [alist_lookup_any_isSome, hs] at hany
        simp at hany
      · simp [hs]
    · simp [hk]
  · rw [if_neg hany, alist_lookup_append_one]
    have hnone : alist_lookup acc k = none := by
      rw [alist_lookup_any_isSome] at hany
      simpa using hany
    by_cases hk : k' = k
    · subst hk
      rw [hnone]
      simp
    · rcases hs : alist_lookup acc k' with _ | vs <;> simp [hs, Ne.symm hk, hk]

/-- The key/value extractor form of the loop bodies of
`aggregate_city_means` and `city_coordinates`: each element contributes at
most one `(city, value)` pair, appended to the city's group. -/
def groupStep {α β : Type} (kv : β → Option (String × α))
    (acc : List (String × List α)) (b : β) : List (String × List α) :=
  match kv b with
  | some q => addToCity acc q.1 q.2
  | none => acc

/-- The values a list contributes to city `c` under extractor `kv`, in
input order. -/
def groupOf {α β : Type} (kv : β → Option (String × α)) (l : List β)
    (c : String) : List α :=
  l.filterMap fun b => (kv b).bind fun q => if q.1 = c then some q.2 else none

/-- Append to an optional group, creating it when needed. -/
def optAppend {α : Type} : Option (List α) → List α → Option (List α)
  | none, [] => none
  | none, g => some g
  | some vs, g => some (vs ++ g)

theorem optAppend_none_nil {α : Type} : optAppend (none : Option (List α)) [] = none :=
  rfl

theorem optAppend_none_of_ne {α : Type} (g : List α) (h : g ≠ []) :
    optAppend none g = some g := by
  cases g with
  | nil => exact absurd rfl h
  | cons a t => rfl

theorem alist_lookup_foldl_groupStep {α β : Type} (kv : β → Option (String × α))
    (l : List β) : ∀ (acc : List (String × List α)) (c : String),
    alist_lookup (l.foldl (groupStep kv) acc) c =
      optAppend (alist_lookup acc c) (groupOf kv l c) := by
  induction l with
  | nil =>
    intro acc c
    rcases h : alist_lookup acc c with _ | vs <;> simp [groupOf, optAppend, h]
  | cons b t ih =>
    intro acc c
    simp only [List.foldl_cons]
    rw [ih]
    rcases hkv : kv b with _ | q
    · simp [groupStep, hkv, groupOf, List.filterMap_cons]
    · simp only [groupStep, hkv]
      rw [alist_lookup_addToCity]
      by_cases hc : c = q.1
      · subst hc
        rcases hs : alist_lookup acc q.1 with _ | vs <;>
          simp [optAppend, groupOf, List.filterMap_cons, hkv, hs]
      · have hq : ¬ q.1 = c := fun h => hc h.symm
        simp [hc, groupOf, List.filterMap_cons, hkv, hq]

theorem addToCity_values_ne_nil {α : Type} (acc : List (String × List α))
    (k : String) (v : α) (h : ∀ p ∈ acc, p.2 ≠ []) :
    ∀ p ∈ addToCity acc k v, p.2 ≠ [] := by
  intro p hp
  unfold addToCity at hp
  by_cases hany : (acc.any fun p => p.1 = k) = true
  · rw [if_pos hany] at hp
    rcases List.mem_map.mp hp with ⟨q, hq, rfl⟩
    by_cases hqk : q.1 = k <;> simp [hqk, h q hq]
  · rw [if_neg hany] at hp
    rcases List.mem_append.mp hp with hp | hp
    · exact h p hp
    · simp only [List.mem_singleton] at hp
      subst hp
      simp

theorem foldl_groupStep_values_ne_nil {α β : Type} (kv : β → Option (String × α))
    (l : List β) : ∀ (acc : List (String × List α)), (∀ p ∈ acc, p.2 ≠ []) →
    ∀ p ∈ l.foldl (groupStep kv) acc, p.2 ≠ [] := by
  induction l with
  | nil => intro acc h; exact h
  | cons b t ih =>
    intro acc h
    simp only [List.foldl_cons]
    apply ih
    rcases hkv : kv b with _ | q
    · simpa [groupStep, hkv] using h
    · simp only [groupStep, hkv]
      exact addToCity_values_ne_nil acc q.1 q.2 h

theorem alist_lookup_filterMap_group {α γ : Type} [DecidableEq α]
    (cv : List (String × List α))
    (f : List α → γ) (hne : ∀ p ∈ cv, p.2 ≠ []) (c : String) :
    alist_lookup (cv.filterMap fun p =>
        if p.2 = [] then none else some (p.1, f p.2)) c =
      (alist_lookup cv c).map f := by
  induction cv with
  | nil => simp [alist_lookup]
  | cons p rest ih =>
    have hp : p.2 ≠ [] := hne p (List.mem_cons_self _ _)
    simp only [List.filterMap_cons, if_neg hp]
    by_cases hc : p.1 = c <;>
      simp [alist_lookup, hc, ih fun q hq => hne q (List.mem_cons_of_mem _ hq)]

theorem alist_lookup_eq_none_imp {α : Type} (l : List (String × α)) (c : String)
    (h : alist_lookup l c = none) : ∀ p ∈ l, p.1 ≠ c := by
  induction l with
  | nil => simp
  | cons q rest ih =>
    intro p hp
    by_cases hq : q.1 = c
    · rw [show alist_lookup (q :: rest) c = some q.2 by simp [alist_lookup, hq]] at h
      exact absurd h (by simp)
    · rcases List.mem_cons.mp hp with hp | hp
      · subst hp; exact hq
      · exact ih (by simpa [alist_lookup, hq] using h) p hp

theorem alist_lookup_map_snd {α β : Type} (l : List (String × α)) (g : α → β)
    (c : String) :
    alist_lookup (l.map fun p => (p.1, g p.2)) c = (alist_lookup l c).map g := by
  induction l with
  | nil => simp [alist_lookup]
  | cons p rest ih =>
    by_cases hp : p.1 = c <;> simp [alist_lookup, hp, ih]

/-- What `compute_station_means` records for each station: the mean of the
non-missing values of the interpolated series, or the undefined marker. -/
theorem compute_station_means_lookup (series : List (String × List (Option ℚ)))
    (c : String) :
    alist_lookup (compute_station_means series) c =
      (alist_lookup series c).map fun values =>
        if ((interpolate_series values).filterMap id) = [] then none
        else some (((interpolate_series values).filterMap id).sum /
          ((((interpolate_series values).filterMap id).length : ℚ))) := by
  unfold compute_station_means
  exact alist_lookup_map_snd series (fun values =>
    if ((interpolate_series values).filterMap id) = [] then none
    else some (((interpolate_series values).filterMap id).sum /
      ((((interpolate_series values).filterMap id).length : ℚ)))) c

/-- `aggregate_city_means` characterized pointwise: a city's entry is the
mean of the defined station means grouped under it, absent when the group
is empty. -/
theorem aggregate_city_means_lookup (sm : List (String × Option ℚ))
    (meta : List (String × StationInfo)) (c : String) :
    alist_lookup (aggregate_city_means sm meta) c =
      if city_group sm meta c = [] then none
      else some ((city_group sm meta c).sum / ((city_group sm meta c).length : ℚ)) := by
  have hstep : (fun (acc : List (String × List ℚ)) (p : String × Option ℚ) =>
      match p.2, alist_lookup meta p.1 with
      | some v, some meta => addToCity acc meta.city v
      | _, _ => acc) = groupStep (fun p : String × Option ℚ =>
        match p.2, alist_lookup meta p.1 with
        | some v, some mi => some (mi.city, v)
        | _, _ => none) := by
    funext acc p
    rcases p with ⟨code, mv⟩
    rcases mv with _ | v
    · rcases hm : alist_lookup meta code with _ | mi <;> simp [groupStep, hm]
    · rcases hm : alist_lookup meta code with _ | mi <;> simp [groupStep, hm]
  have hgroup : groupOf (fun p : String × Option ℚ =>
      match p.2, alist_lookup meta p.1 with
      | some v, some mi => some (mi.city, v)
      | _, _ => none) sm c = city_group sm meta c := by
    unfold groupOf city_group
    congr 1
    funext p
    rcases p with ⟨code, mv⟩
    rcases mv with _ | v
    · rcases hm : alist_lookup meta code with _ | mi <;> simp [hm]
    · rcases hm : alist_lookup meta code with _ | mi <;> simp [hm]
  simp only [aggregate_city_means]
  rw [hstep]
  rw [alist_lookup_filterMap_group (sm.foldl (groupStep _) [])
    (fun vs => vs.sum / (vs.length : ℚ))
    (foldl_groupStep_values_ne_nil _ sm [] (by simp)) c]
  rw [alist_lookup_foldl_groupStep _ sm [] c]
  rw [show alist_lookup ([] : List (String × List ℚ)) c = none from rfl]
  rw [hgroup]
  rcases hg : city_group sm meta c with _ | ⟨a, t⟩
  · simp [optAppend]
  · simp [optAppend]

/-- A station whose statistic is the undefined marker contributes nothing
to city aggregation. -/
theorem aggregate_city_means_skip_undefined (c : String)
    (sm : List (String × Option ℚ)) (meta : List (String × StationInfo)) :
    aggregate_city_means ((c, none) :: sm) meta = aggregate_city_means sm meta :=
  rfl

/-- `city_coordinates` characterized pointwise: a city's entry is the mean
latitude and mean longitude of all its metadata stations, absent when the
metadata lists none. -/
theorem city_coordinates_lookup (meta : List (String × StationInfo)) (c : String) :
    alist_lookup (city_coordinates meta) c =
      if coord_group meta c = [] then none
      else some (((coord_group meta c).map Prod.fst).sum / ((coord_group meta c).length : ℚ),
        ((coord_group meta c).map Prod.snd).sum / ((coord_group meta c).length : ℚ)) := by
  have hstep : (fun (acc : List (String × List (ℚ × ℚ))) (p : String × StationInfo) =>
      addToCity acc p.2.city (p.2.lat, p.2.lon)) =
      groupStep (fun p : String × StationInfo =>
        some (p.2.city, (p.2.lat, p.2.lon))) := by
    funext acc p
    rfl
  have hgroup : groupOf (fun p : String × StationInfo =>
      some (p.2.city, (p.2.lat, p.2.lon))) meta c = coord_group meta c := rfl
  simp only [city_coordinates]
  rw [hstep]
  rw [alist_lookup_filterMap_group (meta.foldl (groupStep _) [])
    (fun vs => ((vs.map Prod.fst).sum / (vs.length : ℚ),
      (vs.map Prod.snd).sum / (vs.length : ℚ)))
    (foldl_groupStep_values_ne_nil _ meta [] (by simp)) c]
  rw [alist_lookup_foldl_groupStep _ meta [] c]
  rw [show alist_lookup ([] : List (String × List (ℚ × ℚ))) c = none from rfl]
  rw [hgroup]
  rcases hg : coord_group meta c with _ | ⟨a, t⟩
  · simp [optAppend]
  · simp [optAppend]

/-! ### The stable ascending sort and two-decimal rounding of the Ranker -/

theorem mem_insort (x p : String × ℚ) (l : List (String × ℚ)) :
    x ∈ insort p l ↔ x = p ∨ x ∈ l := by
  induction l with
  | nil => simp [insort]
  | cons q rest ih =>
    simp only [insort]
    by_cases hle : q.2 ≤ p.2
    · simp [hle, ih]
      tauto
    · simp [hle]

theorem insort_pairwise (p : String × ℚ) (l : List (String × ℚ))
    (h : l.Pairwise fun a b => a.2 ≤ b.2) :
    (insort p l).Pairwise fun a b => a.2 ≤ b.2 := by
  induction l with
  | nil => simp [insort]
  | cons q rest ih =>
    rcases List.pairwise_cons.mp h with ⟨hq, hrest⟩
    simp only [insort]
    by_cases hle : q.2 ≤ p.2
    · rw [if_pos hle, List.pairwise_cons]
      refine ⟨fun x hx => ?_, ih hrest⟩
      rcases (mem_insort x p rest).mp hx with h1 | h1
      · subst h1; exact hle
      · exact hq x h1
    · rw [if_neg hle, List.pairwise_cons]
      push_neg at hle
      refine ⟨fun x hx => ?_, h⟩
      rcases List.mem_cons.mp hx with h1 | h1
      · subst h1; exact le_of_lt hle
      · exact le_trans (le_of_lt hle) (hq x h1)

theorem foldl_insort_pairwise (m : List (String × ℚ)) :
    ∀ acc, (acc.Pairwise fun a b => a.2 ≤ b.2) →
      ((m.foldl (fun acc p => insort p acc) acc).Pairwise fun a b => a.2 ≤ b.2) := by
  induction m with
  | nil => intro acc h; exact h
  | cons p t ih =>
    intro acc h
    exact ih (insort p acc) (insort_pairwise p acc h)

theorem sorted_by_val_pairwise (m : List (String × ℚ)) :
    (sorted_by_val m).Pairwise fun a b => a.2 ≤ b.2 :=
  foldl_insort_pairwise m [] (by simp)

theorem filter_insort (v : ℚ) (p : String × ℚ) (l : List (String × ℚ))
    (h : l.Pairwise fun a b => a.2 ≤ b.2) :
    (insort p l).filter (fun q => q.2 = v) =
      if p.2 = v then l.filter (fun q => q.2 = v) ++ [p]
      else l.filter (fun q => q.2 = v) := by
  induction l with
  | nil => by_cases hp : p.2 = v <;> simp [insort, hp]
  | cons q rest ih =>
    rcases List.pairwise_cons.mp h with ⟨hq_rest, hrest⟩
    simp only [insort]
    by_cases hle : q.2 ≤ p.2
    · rw [if_pos hle]
      by_cases hqv : q.2 = v <;> by_cases hpv : p.2 = v <;>
        simp [List.filter_cons, hqv, hpv, ih hrest]
    · rw [if_neg hle]
      push_neg at hle
      by_cases hpv : p.2 = v
      · rw [if_pos hpv]
        have hnil : (q :: rest).filter (fun x => x.2 = v) = [] := by
          rw [List.filter_eq_nil_iff]
          intro a ha
          have haq : q.2 ≤ a.2 := by
            rcases List.mem_cons.mp ha with h1 | h1
            · subst h1; exact le_refl _
            · exact hq_rest a h1
          have : v < a.2 := lt_of_lt_of_le (hpv ▸ hle) haq
          simpa using ne_of_gt this
        simp [List.filter_cons, hpv, hnil]
      · rw [if_neg hpv]
        simp [List.filter_cons, hpv]

theorem filter_foldl_insort (v : ℚ) (m : List (String × ℚ)) :
    ∀ acc, (acc.Pairwise fun a b => a.2 ≤ b.2) →
      (m.foldl (fun acc p => insort p acc) acc).filter (fun q => q.2 = v) =
        acc.filter (fun q => q.2 = v) ++ m.filter (fun q => q.2 = v) := by
  induction m with
  | nil => intro acc h; simp
  | cons p t ih =>
    intro acc h
    simp only [List.foldl_cons]
    rw [ih (insort p acc) (insort_pairwise p acc h), filter_insort v p acc h]
    by_cases hpv : p.2 = v <;> simp [List.filter_cons, hpv]

/-- Stability of the Ranker's sort: entries with any given statistic value
appear in the sorted list in their input order. -/
theorem sorted_by_val_stable (m : List (String × ℚ)) (v : ℚ) :
    (sorted_by_val m).filter (fun q => q.2 = v) = m.filter (fun q => q.2 = v) := by
  have := filter_foldl_insort v m [] (by simp)
  simpa [sorted_by_val] using this

theorem insort_length (p : String × ℚ) (l : List (String × ℚ)) :
    (insort p l).length = l.length + 1 := by
  induction l with
  | nil => simp [insort]
  | cons q rest ih =>
    simp only [insort]
    by_cases hle : q.2 ≤ p.2 <;> simp [hle, ih]

theorem foldl_insort_length (m : List (String × ℚ)) :
    ∀ acc, (m.foldl (fun acc p => insort p acc) acc).length = acc.length + m.length := by
  induction m with
  | nil => intro acc; simp
  | cons p t ih =>
    intro acc
    simp only [List.foldl_cons]
    rw [ih (insort p acc), insort_length]
    simp; omega

theorem sorted_by_val_length (m : List (String × ℚ)) :
    (sorted_by_val m).length = m.length := by
  have := foldl_insort_length m []
  simpa [sorted_by_val] using this

theorem round_half_even_bounds (x : ℚ) :
    ⌊x⌋ ≤ round_half_even x ∧ round_half_even x ≤ ⌊x⌋ + 1 := by
  unfold round_half_even
  split_ifs <;> omega

theorem round_half_even_mono {x y : ℚ} (h : x ≤ y) :
    round_half_even x ≤ round_half_even y := by
  rcases lt_or_eq_of_le (Int.floor_le_floor h) with hf | hf
  · have h1 := (round_half_even_bounds x).2
    have h2 := (round_half_even_bounds y).1
    omega
  · unfold round_half_even
    rw [← hf]
    have hfx : (⌊x⌋ : ℚ) ≤ x := Int.floor_le x
    split_ifs <;> first | omega | linarith

theorem round2_mono {x y : ℚ} (h : x ≤ y) : round2 x ≤ round2 y := by
  unfold round2
  have h1 : x * 100 ≤ y * 100 := by linarith
  have h2 := round_half_even_mono h1
  have h3 : ((round_half_even (x * 100) : ℤ) : ℚ) ≤
      ((round_half_even (y * 100) : ℤ) : ℚ) := by exact_mod_cast h2
  linarith

theorem pairwise_enumFrom {α : Type} {R : α → α → Prop} :
    ∀ (l : List α), l.Pairwise R → ∀ n : ℕ,
      ((List.enumFrom n l).Pairwise fun a b => R a.2 b.2) := by
  intro l
  induction l with
  | nil => intro _ n; simp
  | cons x t ih =>
    intro h n
    rcases List.pairwise_cons.mp h with ⟨hx, ht⟩
    simp only [List.enumFrom]
    rw [List.pairwise_cons]
    refine ⟨fun q hq => ?_, ih ht (n + 1)⟩
    have hq2 : q.2 ∈ t := by
      have hmap := List.enumFrom_map_snd (n + 1) t
      rw [← hmap]
      exact List.mem_map_of_mem Prod.snd hq
    exact hx q.2 hq2

/-- Positions holding a known value are returned unchanged. -/
theorem interpGo_getElem_some (fuel : ℕ) : ∀ (prev : Option ℚ)
    (l : List (Option ℚ)), l.length ≤ fuel → ∀ (i : ℕ) (v : ℚ),
    l[i]? = some (some v) → (interpGo fuel prev l)[i]? = some (some v) := by
  induction fuel with
  | zero =>
    intro prev l h i v hi
    have : l = [] := List.eq_nil_of_length_eq_zero (Nat.le_zero.mp h)
    subst this; simp at hi
  | succ fuel ih =>
    intro prev l h i v hi
    cases l with
    | nil => simp at hi
    | cons x rest =>
      cases x with
      | some u =>
        simp only [interpGo]
        cases i with
        | zero => simpa using hi
        | succ j =>
          simp only [List.getElem?_cons_succ] at hi ⊢
          exact ih (some u) rest (by simpa using h) j v hi
      | none =>
        cases i with
        | zero => simp at hi
        | succ j =>
          simp only [List.getElem?_cons_succ] at hi
          simp only [interpGo]
          by_cases hj : j < (rest.takeWhile fun x => x.isNone).length
          · exfalso
            have hsplit : rest[j]? = (rest.takeWhile fun x => x.isNone)[j]? := by
              conv_lhs => rw [← List.takeWhile_append_dropWhile
                (p := fun x : Option ℚ => x.isNone) (l := rest)]
              rw [List.getElem?_append_left hj]
            rw [hsplit] at hi
            rcases List.getElem?_eq_some.mp hi with ⟨hlt, hget⟩
            have hmem : (some v : Option ℚ) ∈ rest.takeWhile fun x => x.isNone := by
              rw [← hget]; exact List.getElem_mem hlt
            have := List.mem_takeWhile_imp hmem
            simp at this
          · push_neg at hj
            have hsplit : rest[j]? =
                (rest.dropWhile fun x => x.isNone)[j -
                  (rest.takeWhile fun x => x.isNone).length]? := by
              conv_lhs => rw [← List.takeWhile_append_dropWhile
                (p := fun x : Option ℚ => x.isNone) (l := rest)]
              rw [List.getElem?_append_right hj]
            rw [List.getElem?_append_right
              (by rw [gapFill_length]; omega)]
            rw [gapFill_length]
            have : j + 1 - ((rest.takeWhile fun x => x.isNone).length + 1) =
                j - (rest.takeWhile fun x => x.isNone).length := by omega
            rw [this]
            apply ih prev _ (by have := length_dropWhile_isNone_le rest; simp at h; omega)
            rw [← hsplit]; exact hi

/-! ### The claims -/

/-- C1: for every gap bounded by a known value `pv` immediately before and
a known value `nx` immediately after, interpolation assigns the position at
0-indexed offset `o` within the gap of length `g` the value
`pv + (nx - pv) * (o + 1) / (g + 1)`; in particular
`[5.0, missing, missing, 8.0]` interpolates to `[5.0, 6.0, 7.0, 8.0]`. -/
theorem interp_gap_linear (l1 l2 : List (Option ℚ)) (pv nx : ℚ) (g o : ℕ)
    (ho : o < g) :
    (interpolate_series (l1 ++ some pv ::
        (List.replicate g none ++ some nx :: l2)))[l1.length + 1 + o]? =
      some (some (pv + (nx - pv) * ((o : ℚ) + 1) / ((g : ℚ) + 1)))
    ∧ interpolate_series [some 5, none, none, some 8] =
      [some 5, some 6, some 7, some 8] := by
  constructor
  · unfold interpolate_series
    rw [interpGo_append pv (List.replicate g none ++ some nx :: l2) _ l1 none
      (by simp only [List.length_append, List.length_cons, List.length_replicate, List.length_nil]
          omega)]
    rw [interpGo_gap (some pv) g nx l2 _
      (by simp only [List.length_append, List.length_cons, List.length_replicate, List.length_nil]
          omega)]
    have hlen1 : (interpGo (l1 ++ some pv ::
        (List.replicate g none ++ some nx :: l2)).length none
        (l1 ++ [some pv])).length = l1.length + 1 := by
      rw [interpGo_length _ none _
        (by simp only [List.length_append, List.length_cons, List.length_replicate, List.length_nil]
            omega)]
      simp
    rw [List.getElem?_append_right (by rw [hlen1]; omega), hlen1]
    have hidx : l1.length + 1 + o - (l1.length + 1) = o := by omega
    rw [hidx]
    rw [List.getElem?_append_left (by rw [gapFill_length]; exact ho)]
    simp only [gapFill]
    rw [List.getElem?_map, List.getElem?_range ho]
    rfl
  · norm_num [interpolate_series, interpGo, gapFill, List.takeWhile,
      List.dropWhile, List.range, List.range.loop, List.replicate]

/-- C2: a series with at least one known value is fully reconstructed (no
missing marker anywhere in the output); only an entirely missing series
keeps missing positions (it is returned unchanged). -/
theorem interp_full_reconstruction (values : List (Option ℚ)) :
    ((∃ x ∈ values, x ≠ none) → ∀ y ∈ interpolate_series values, y ≠ none)
    ∧ ((∀ x ∈ values, x = none) → interpolate_series values = values) := by
  constructor
  · intro hx
    exact interpGo_no_none values.length none values (Nat.le_refl _) (Or.inr hx)
  · intro hall
    exact interpGo_all_none values.length values (Nat.le_refl _) hall

/-- C3: a leading gap is filled with the first known value after it, a
trailing gap with the last known value before it, and an entirely missing
series stays entirely missing. -/
theorem interp_boundary_policy :
    (∀ (g : ℕ) (nx : ℚ) (l2 : List (Option ℚ)) (o : ℕ), o < g →
      (interpolate_series (List.replicate g none ++ some nx :: l2))[o]? =
        some (some nx))
    ∧ (∀ (l1 : List (Option ℚ)) (pv : ℚ) (g o : ℕ), o < g →
      (interpolate_series (l1 ++ some pv ::
        List.replicate g none))[l1.length + 1 + o]? = some (some pv))
    ∧ (∀ values : List (Option ℚ), (∀ x ∈ values, x = none) →
      interpolate_series values = values) := by
  refine ⟨?_, ?_, ?_⟩
  · intro g nx l2 o ho
    unfold interpolate_series
    rw [interpGo_gap none g nx l2 _
      (by simp only [List.length_append, List.length_cons, List.length_replicate,
            List.length_nil]
          omega)]
    rw [List.getElem?_append_left (by rw [gapFill_length]; exact ho)]
    simp only [gapFill]
    rw [List.getElem?_replicate, if_pos ho]
  · intro l1 pv g o ho
    unfold interpolate_series
    rw [interpGo_append pv (List.replicate g none) _ l1 none
      (by simp only [List.length_append, List.length_cons, List.length_replicate,
            List.length_nil]
          omega)]
    rw [interpGo_trailing pv g _ (by simp only [List.length_replicate]; omega)]
    have hlen1 : (interpGo (l1 ++ some pv :: List.replicate g none).length none
        (l1 ++ [some pv])).length = l1.length + 1 := by
      rw [interpGo_length _ none _
        (by simp only [List.length_append, List.length_cons, List.length_replicate,
              List.length_nil]
            omega)]
      simp
    rw [List.getElem?_append_right (by rw [hlen1]; omega), hlen1]
    have hidx : l1.length + 1 + o - (l1.length + 1) = o := by omega
    rw [hidx]
    rw [List.getElem?_replicate, if_pos ho]
  · intro values hall
    exact interpGo_all_none values.length values (Nat.le_refl _) hall

/-- C10: interpolation returns a list of the same length, every position
holding a known value in the input holds that exact value in the output,
and the input is never mutated (the model is a pure function over a copy,
as the source's `result = values[:]`). -/
theorem interp_frame_preservation (l : List (Option ℚ)) :
    (interpolate_series l).length = l.length
    ∧ ∀ (i : ℕ) (v : ℚ), l[i]? = some (some v) →
      (interpolate_series l)[i]? = some (some v) :=
  ⟨interpolate_series_length l, fun i v hi =>
    interpGo_getElem_some l.length none l (Nat.le_refl _) i v hi⟩

/-- C4: the Station Aggregator records, for every station of the input,
the arithmetic mean of the non-missing values of its interpolated series;
a series with zero non-missing values gets the distinguished undefined
marker (`none`, the model of `float("nan")` — not zero), and a station
with an undefined statistic is excluded from city aggregation. -/
theorem station_mean_spec (series : List (String × List (Option ℚ)))
    (c : String) (sm : List (String × Option ℚ))
    (meta : List (String × StationInfo)) :
    alist_lookup (compute_station_means series) c =
      ((alist_lookup series c).map fun values =>
        if ((interpolate_series values).filterMap id) = [] then none
        else some (((interpolate_series values).filterMap id).sum /
          ((((interpolate_series values).filterMap id).length : ℚ))))
    ∧ aggregate_city_means ((c, none) :: sm) meta = aggregate_city_means sm meta :=
  ⟨compute_station_means_lookup series c,
    aggregate_city_means_skip_undefined c sm meta⟩

/-- C5: a city's statistic is exactly the unweighted mean of the defined
station statistics of its stations (undefined ones excluded); a city whose
group of defined statistics is empty is absent from the output mapping
altogether; and the concrete instance A=10, B=undefined, C=20 in city X
yields exactly 15. -/
theorem city_mean_spec (sm : List (String × Option ℚ))
    (meta : List (String × StationInfo)) (c : String) :
    (alist_lookup (aggregate_city_means sm meta) c =
       if city_group sm meta c = [] then none
       else some ((city_group sm meta c).sum / ((city_group sm meta c).length : ℚ)))
    ∧ (city_group sm meta c = [] → ∀ p ∈ aggregate_city_means sm meta, p.1 ≠ c)
    ∧ aggregate_city_means [("A", some 10), ("B", none), ("C", some 20)]
        [("A", ⟨"", "X", 0, 0, ""⟩), ("B", ⟨"", "X", 0, 0, ""⟩),
          ("C", ⟨"", "X", 0, 0, ""⟩)] = [("X", 15)] := by
  refine ⟨aggregate_city_means_lookup sm meta c, fun hg => ?_, ?_⟩
  · apply alist_lookup_eq_none_imp
    rw [aggregate_city_means_lookup, if_pos hg]
  · have h20 : ([10, 20] : List ℚ) ≠ [] := by simp
    norm_num [aggregate_city_means, alist_lookup, addToCity, List.foldl,
      List.filterMap_cons, List.filterMap_nil, List.sum_cons, List.sum_nil, h20]

/-- C6: the Ranker's rows are sorted ascending by statistic value, carry
the ranks 1, 2, 3, … in output position order, ties keep the input's
relative order (stability of the sort), and the input
{X: 15, Y: 5, Z: 10} produces [(1,Y,5), (2,Z,10), (3,X,15)]. -/
theorem ranking_spec (m : List (String × ℚ)) :
    ((save_ranking m).Pairwise fun a b => a.2.2 ≤ b.2.2)
    ∧ (save_ranking m).map (fun r => r.1) = List.range' 1 m.length
    ∧ (∀ v : ℚ, (sorted_by_val m).filter (fun q => q.2 = v) =
        m.filter (fun q => q.2 = v))
    ∧ save_ranking [("X", 15), ("Y", 5), ("Z", 10)] =
        [(1, "Y", 5), (2, "Z", 10), (3, "X", 15)] := by
  refine ⟨?_, ?_, fun v => sorted_by_val_stable m v, ?_⟩
  · unfold save_ranking
    exact List.Pairwise.map _ (fun a b hab => round2_mono hab)
      (pairwise_enumFrom (sorted_by_val m) (sorted_by_val_pairwise m) 1)
  · unfold save_ranking
    rw [List.map_map]
    rw [show ((fun (r : ℕ × String × ℚ) => r.1) ∘
        fun (p : ℕ × (String × ℚ)) => (p.1, p.2.1, round2 p.2.2)) =
        (Prod.fst : ℕ × (String × ℚ) → ℕ) from rfl]
    rw [List.enumFrom_map_fst, sorted_by_val_length]
  · norm_num [save_ranking, sorted_by_val, insort, List.enumFrom, round2,
      round_half_even]

/-- C7: a city's representative coordinate is the unweighted mean of the
latitudes and of the longitudes of all metadata stations of that city —
the reduction reads only the station metadata, so stations with undefined
statistics or no observations are included, independently of the statistic
aggregation's inclusion rule. -/
theorem city_coordinates_spec (meta : List (String × StationInfo)) (c : String) :
    alist_lookup (city_coordinates meta) c =
      if coord_group meta c = [] then none
      else some (((coord_group meta c).map Prod.fst).sum /
          ((coord_group meta c).length : ℚ),
        ((coord_group meta c).map Prod.snd).sum /
          ((coord_group meta c).length : ℚ)) :=
  city_coordinates_lookup meta c

/-- C8 counterexample: city `Q` is present in the station metadata (via
station `S1`) and has zero associated stations in the observation data
(the station-means mapping is empty), yet it appears in the
city-coordinate output mapping, because `city_coordinates` is computed
from the metadata alone.  It is absent from the city-statistic mapping. -/
theorem city_zero_obs_coord_cex :
    aggregate_city_means [] [("S1", ⟨"", "Q", 1, 2, ""⟩)] = []
    ∧ alist_lookup (city_coordinates [("S1", ⟨"", "Q", 1, 2, ""⟩)]) "Q" =
        some (2, 1) := by
  constructor
  · rfl
  · have hne : ([((2 : ℚ), (1 : ℚ))] : List (ℚ × ℚ)) ≠ [] := by simp
    norm_num [city_coordinates, addToCity, alist_lookup, List.foldl,
      List.filterMap_cons, List.filterMap_nil, List.sum_cons, List.sum_nil, hne]

/-- C8 amended: a city none of whose observed stations map to it is absent
from the city-statistic mapping; but the city-coordinate mapping, computed
from the metadata alone, contains every city with at least one metadata
station, observed or not. -/
theorem city_zero_obs_absent_from_stats (sm : List (String × Option ℚ))
    (meta : List (String × StationInfo)) (c : String)
    (h : ∀ p ∈ sm, ∀ mi, alist_lookup meta p.1 = some mi → mi.city ≠ c) :
    (∀ q ∈ aggregate_city_means sm meta, q.1 ≠ c)
    ∧ ((∃ p ∈ meta, p.2.city = c) →
        alist_lookup (city_coordinates meta) c ≠ none) := by
  constructor
  · have hg : city_group sm meta c = [] := by
      unfold city_group
      rw [List.filterMap_eq_nil_iff]
      intro p hp
      rcases hv : p.2 with _ | v
      · simp [hv]
      · rcases hm : alist_lookup meta p.1 with _ | mi
        · simp [hv, hm]
        · have := h p hp mi hm
          simp [hv, hm, this]
    apply alist_lookup_eq_none_imp
    rw [aggregate_city_means_lookup, if_pos hg]
  · rintro ⟨p, hp, hc⟩ hnone
    rw [city_coordinates_lookup] at hnone
    by_cases hcg : coord_group meta c = []
    · have hmem : (p.2.lat, p.2.lon) ∈ coord_group meta c := by
        unfold coord_group
        exact List.mem_filterMap.mpr ⟨p, hp, by simp [hc]⟩
      rw [hcg] at hmem
      simp at hmem
    · rw [if_neg hcg] at hnone
      simp at hnone

/-- C9: the run aborts with the fatal condition exactly when the
observation source yields zero files; the guard is the first step of
`main_model`, before any core component runs, and for a nonempty file list
the whole core pipeline completes without an error. -/
theorem main_abort_iff_no_files (meta : List (String × StationInfo))
    (files : List String) (series : List (String × List (Option ℚ))) :
    (∃ e, main_model meta files series = Except.error e) ↔ files = [] := by
  constructor
  · rintro ⟨e, he⟩
    by_contra hne
    unfold main_model at he
    rw [if_neg hne] at he
    simp at he
  · intro h
    subst h
    exact ⟨_, rfl⟩

/-! ### Witnesses -/

theorem interp_gap_linear_witness :
    (0 : ℕ) < 1 ∧
    (interpolate_series (([] : List (Option ℚ)) ++ some 1 ::
        (List.replicate 1 none ++ some 3 :: [])))[
        ([] : List (Option ℚ)).length + 1 + 0]? =
      some (some (1 + (3 - 1) * (((0 : ℕ) : ℚ) + 1) / (((1 : ℕ) : ℚ) + 1))) :=
  ⟨Nat.zero_lt_one, (interp_gap_linear [] [] 1 3 1 0 Nat.zero_lt_one).1⟩

theorem interp_full_reconstruction_witness :
    (∃ x ∈ ([some 5, none] : List (Option ℚ)), x ≠ none)
    ∧ (∀ y ∈ interpolate_series ([some 5, none] : List (Option ℚ)), y ≠ none)
    ∧ interpolate_series ([none, none] : List (Option ℚ)) = [none, none] :=
  ⟨⟨some 5, by simp, by simp⟩,
    (interp_full_reconstruction [some 5, none]).1 ⟨some 5, by simp, by simp⟩,
    (interp_full_reconstruction [none, none]).2 (by simp)⟩

theorem interp_boundary_policy_witness :
    (interpolate_series (List.replicate 2 none ++ some 10 ::
        ([some 10] : List (Option ℚ))))[0]? = some (some 10)
    ∧ (interpolate_series (([some 3] : List (Option ℚ)) ++ some 3 ::
        List.replicate 2 none))[([some 3] : List (Option ℚ)).length + 1 + 0]? =
      some (some 3)
    ∧ interpolate_series ([none, none] : List (Option ℚ)) = [none, none] :=
  ⟨interp_boundary_policy.1 2 10 [some 10] 0 (by norm_num),
    interp_boundary_policy.2.1 [some 3] 3 2 0 (by norm_num),
    interp_boundary_policy.2.2 [none, none] (by simp)⟩

theorem city_mean_spec_witness :
    city_group [("A", some 10)] [("A", ⟨"", "X", 0, 0, ""⟩)] "Y" = []
    ∧ ∀ p ∈ aggregate_city_means [("A", some 10)]
        [("A", ⟨"", "X", 0, 0, ""⟩)], p.1 ≠ "Y" := by
  have hg : city_group [("A", some 10)]
      [("A", (⟨"", "X", 0, 0, ""⟩ : StationInfo))] "Y" = [] := by
    simp [city_group, alist_lookup, List.filterMap_cons, List.filterMap_nil]
  exact ⟨hg,
    (city_mean_spec [("A", some 10)] [("A", ⟨"", "X", 0, 0, ""⟩)] "Y").2.1 hg⟩

theorem city_zero_obs_absent_from_stats_witness :
    (∀ q ∈ aggregate_city_means [("S2", some 3)]
        [("S1", ⟨"", "Q", 1, 2, ""⟩), ("S2", ⟨"", "R", 0, 0, ""⟩)], q.1 ≠ "Q")
    ∧ ((∃ p ∈ ([("S1", ⟨"", "Q", 1, 2, ""⟩), ("S2", ⟨"", "R", 0, 0, ""⟩)] :
          List (String × StationInfo)), p.2.city = "Q") →
        alist_lookup (city_coordinates
          [("S1", ⟨"", "Q", 1, 2, ""⟩), ("S2", ⟨"", "R", 0, 0, ""⟩)]) "Q" ≠ none) := by
  apply city_zero_obs_absent_from_stats
  intro p hp mi hm
  have hp2 : p = ("S2", some 3) := by simpa using hp
  subst hp2
  simp [alist_lookup] at hm
  subst hm
  simp

theorem main_abort_iff_no_files_witness :
    ∃ e, main_model [] [] [] = Except.error e :=
  (main_abort_iff_no_files [] [] []).mpr rfl

theorem interp_frame_preservation_witness :
    (interpolate_series ([some 3, none] : List (Option ℚ))).length =
      ([some 3, none] : List (Option ℚ)).length
    ∧ ([some 3, none] : List (Option ℚ))[0]? = some (some 3)
    ∧ (interpolate_series ([some 3, none] : List (Option ℚ)))[0]? = some (some 3) :=
  ⟨(interp_frame_preservation [some 3, none]).1, by simp,
    (interp_frame_preservation [some 3, none]).2 0 3 (by simp)⟩
